import Mathlib

/-!
# Verification of the suffix-tree implementation (`suffixTree.js`)

A shallow embedding of the JavaScript suffix-tree implementation
(Ukkonen's algorithm with step-by-step snapshots, plus the query
operations `search`, `findAllMatches`, `longestRepeatedSubstring`
and the two `shortestUniqueSubstring` variants), together with
theorems checking the specification's claims against it.

Modelling choices:
* JS heap objects (`Node` instances linked by references) become an
  explicit node store `List Node`; node ids are positions in the store.
* A leaf's `end === null` (shared global `leafEnd`) becomes `endIdx = none`.
* JS `text[i]` (which yields `undefined` out of range) becomes
  `charAt : List Char → Int → Option Char`.
* Reading `children[i]` out of `[0, 27)` yields `undefined` in JS and
  `none` here.
* The unbounded `while` loops of the construction and the recursive
  DFS traversals are given explicit fuel (by structural recursion, so
  that everything evaluates inside the kernel); running out of fuel
  yields `none`.  The canonical fuel used by the wrappers is generous
  enough for every execution exercised below.
-/

namespace SuffixTreeJS

/-- JS `charToIndex(c)`: `'$' ↦ 26`, otherwise `c.charCodeAt(0) - 'A'.charCodeAt(0)`
(which may fall outside `[0, 27)` for characters outside the alphabet). -/
def charToIndex (c : Char) : Int :=
  if c = '$' then 26 else (c.toNat : Int) - 65

/-- JS `text[i]`: `undefined` (here `none`) when `i` is out of range. -/
def charAt (t : List Char) (i : Int) : Option Char :=
  if i < 0 then none else t.get? i.toNat

/-- JS `text.substring(s, e)`: clamps both arguments to `[0, length]`
and swaps them when `s > e`. -/
def jsSubstring (t : List Char) (s e : Int) : List Char :=
  let clamp : Int → Nat := fun x => (min (max x 0) (t.length : Int)).toNat
  let a := clamp s
  let b := clamp e
  ((t.drop (min a b)).take (max a b - min a b))

/-- One tree node, mirroring the JS `Node` class.  `endIdx = none` is the
JS `end = null` of leaves (resolved against the shared `leafEnd`). -/
structure Node where
  start : Int
  endIdx : Option Int
  children : List (Option Nat)
  suffixLink : Option Nat
  suffixIndex : Int
deriving Repr, DecidableEq

/-- The 27-slot empty children array (`new Array(27).fill(null)`). -/
def empty27 : List (Option Nat) := List.replicate 27 none

/-- JS `new Node(start, end)`. -/
def Node.mkNew (start : Int) (endIdx : Option Int) : Node :=
  { start := start, endIdx := endIdx, children := empty27,
    suffixLink := none, suffixIndex := -1 }

/-- JS `node.edgeLength(currentLeafEnd)`. -/
def Node.edgeLength (nd : Node) (leafEnd : Int) : Int :=
  (nd.endIdx.getD leafEnd) - nd.start + 1

/-- Reading `node.children[idx]`; out-of-range reads are JS `undefined`. -/
def Node.child (nd : Node) (idx : Int) : Option Nat :=
  if idx < 0 then none else (nd.children.getD idx.toNat none)

/-- Writing `node.children[idx] = c` (only in-range writes occur in any
execution reached from the entry points used below). -/
def Node.setChild (nd : Node) (idx : Int) (c : Nat) : Node :=
  if 0 ≤ idx ∧ idx < 27 then
    { nd with children := nd.children.set idx.toNat (some c) }
  else nd

/-- The `some`-children of a node, in child-index order (the JS DFS loops
`for (let i = 0; i < 27; i++) if (node.children[i]) ...`). -/
def Node.kids (nd : Node) : List Nat :=
  nd.children.filterMap (fun x => x)

/-- Placeholder node returned when dereferencing an id that is not in the
store; such a dereference never happens in the executions below. -/
def defaultNode : Node := Node.mkNew 0 (some (-1))

/-- Dereference a node id in the store. -/
def getN (heap : List Node) (id : Nat) : Node :=
  (heap.get? id).getD defaultNode

/-- Mutate the node at `id` (JS mutates the object in place). -/
def setN (heap : List Node) (id : Nat) (nd : Node) : List Node :=
  heap.set id nd

/-- Allocate a node (JS `new Node(...)`) and return its id. -/
def push (heap : List Node) (nd : Node) : List Node × Nat :=
  (heap ++ [nd], heap.length)

/-- One snapshot record pushed by `recordStep`. -/
structure Step where
  message : String
  snapshotRoot : Nat
  activeNodeStart : Int
  activeEdge : Int
  activeLength : Int
  remainder : Int
deriving Repr, DecidableEq

/-- The `SuffixTree` object state: the node store plus every field of the
JS class. -/
structure ST where
  text : List Char
  size : Nat
  nodes : List Node
  root : Nat
  activeNode : Nat
  activeEdge : Int
  activeLength : Int
  remainingSuffixCount : Int
  leafEnd : Int
  lastCreatedNode : Option Nat
  steps : List Step
deriving Repr, DecidableEq

/-- An `ST` with just a root node, used as `Option.getD` fallback when
naming concretely computed trees. -/
def defaultST : ST :=
  { text := [], size := 0, nodes := [Node.mkNew (-1) (some (-1))], root := 0,
    activeNode := 0, activeEdge := -1, activeLength := 0,
    remainingSuffixCount := 0, leafEnd := -1, lastCreatedNode := none,
    steps := [] }

/-- The state update performed by a successful `walkDown(node)`. -/
def walkDownState (st : ST) (nextId : Nat) (edgeLen : Int) : ST :=
  { st with activeEdge := st.activeEdge + edgeLen,
            activeLength := st.activeLength - edgeLen,
            activeNode := nextId }

/-- The tail of the while-loop body: decrement `remainingSuffixCount`
and update the active point. -/
def afterInsert (st : ST) (pos : Nat) : ST :=
  let st := { st with remainingSuffixCount := st.remainingSuffixCount - 1 }
  if st.activeNode = st.root ∧ st.activeLength > 0 then
    { st with activeLength := st.activeLength - 1,
              activeEdge := (pos : Int) - st.remainingSuffixCount + 1 }
  else if st.activeNode ≠ st.root then
    { st with activeNode := (getN st.nodes st.activeNode).suffixLink.getD st.root }
  else st

/-- The `while (remainingSuffixCount > 0)` loop of `extendSuffixTree(pos)`.
`none` means the fuel ran out, or a spot where JS would throw a
`TypeError` (calling `charToIndex` on `undefined`) was reached; neither
happens in the executions below. -/
def extendLoop : Nat → Nat → ST → Option ST
  | 0, _, _ => none
  | Nat.succ fuel, pos, st =>
    if st.remainingSuffixCount ≤ 0 then some st
    else
      let st := if st.activeLength = 0 then { st with activeEdge := (pos : Int) } else st
      match charAt st.text st.activeEdge with
      | none => none
      | some ec =>
        let edgeIndex := charToIndex ec
        match (getN st.nodes st.activeNode).child edgeIndex with
        | none =>
          -- Rule 2: create a new leaf node
          let (heap, leafId) := push st.nodes (Node.mkNew (pos : Int) none)
          let heap := setN heap st.activeNode
            ((getN heap st.activeNode).setChild edgeIndex leafId)
          let st := { st with nodes := heap }
          let st :=
            match st.lastCreatedNode with
            | some l =>
              { st with
                  nodes := setN st.nodes l
                    { getN st.nodes l with suffixLink := some st.activeNode },
                  lastCreatedNode := none }
            | none => st
          extendLoop fuel pos (afterInsert st pos)
        | some nextId =>
          let nextNode := getN st.nodes nextId
          let edgeLen := nextNode.edgeLength st.leafEnd
          if st.activeLength ≥ edgeLen then
            -- walkDown succeeded: continue
            extendLoop fuel pos (walkDownState st nextId edgeLen)
          else
            match charAt st.text pos with
            | none => none
            | some cpos =>
              if charAt st.text (nextNode.start + st.activeLength) = some cpos then
                -- Rule 3 "show stopper": maybe link, increment activeLength, break
                let st :=
                  match st.lastCreatedNode with
                  | some l =>
                    if st.activeNode ≠ st.root then
                      { st with
                          nodes := setN st.nodes l
                            { getN st.nodes l with suffixLink := some st.activeNode },
                          lastCreatedNode := none }
                    else st
                  | none => st
                some { st with activeLength := st.activeLength + 1 }
              else
                -- mismatch: split the edge
                let splitEnd := nextNode.start + st.activeLength - 1
                let (heap, splitId) := push st.nodes (Node.mkNew nextNode.start (some splitEnd))
                let heap := setN heap st.activeNode
                  ((getN heap st.activeNode).setChild edgeIndex splitId)
                let (heap, leafId) := push heap (Node.mkNew (pos : Int) none)
                let heap := setN heap splitId
                  ((getN heap splitId).setChild (charToIndex cpos) leafId)
                let newStart := nextNode.start + st.activeLength
                let heap := setN heap nextId { getN heap nextId with start := newStart }
                match charAt st.text newStart with
                | none => none
                | some nc =>
                  let heap := setN heap splitId
                    ((getN heap splitId).setChild (charToIndex nc) nextId)
                  let heap :=
                    match st.lastCreatedNode with
                    | some l =>
                      setN heap l { getN heap l with suffixLink := some splitId }
                    | none => heap
                  let st := { st with nodes := heap, lastCreatedNode := some splitId }
                  extendLoop fuel pos (afterInsert st pos)

/-- `extendSuffixTree(pos)`: set `leafEnd`, bump `remainingSuffixCount`,
reset `lastCreatedNode`, then run the loop.  The fuel `2*size + 4` covers
every execution exercised below (each loop iteration either decrements
`remainingSuffixCount ≤ size` or strictly decreases `activeLength ≤ size`). -/
def extendSuffixTree (st : ST) (pos : Nat) : Option ST :=
  extendLoop (2 * st.size + 4) pos
    { st with leafEnd := (pos : Int),
              remainingSuffixCount := st.remainingSuffixCount + 1,
              lastCreatedNode := none }

/-- JS `cloneNode(node)`: deep-copies the child structure into fresh nodes,
but copies `suffixLink` (and `start`/`end`/`suffixIndex`) as-is — the JS
source comments this with "just reference".  Clones are allocated in the
same store (the JS heap); here the children are cloned before their parent
node is allocated, which changes only the allocation order (unobservable
in JS, where nodes are identified by reference, never by creation order). -/
def cloneNode : Nat → List Node → Nat → Option (List Node × Nat)
  | 0, _, _ => none
  | Nat.succ fuel, heap, id =>
    let nd := getN heap id
    let folded := nd.children.foldl
      (fun acc slot =>
        match acc with
        | none => none
        | some (heap, ks) =>
          match slot with
          | none => some (heap, ks ++ [none])
          | some c =>
            match cloneNode fuel heap c with
            | none => none
            | some (heap2, cid) => some (heap2, ks ++ [some cid]))
      (some (heap, []))
    match folded with
    | none => none
    | some (heap, kids) => some (push heap { nd with children := kids })

/-- JS `recordStep(message)`: push a snapshot record.  `none` only when the
clone recursion runs out of fuel (never in the executions below). -/
def recordStep (st : ST) (msg : String) : Option ST :=
  match cloneNode (st.nodes.length + 1) st.nodes st.root with
  | none => none
  | some (heap, snapRoot) =>
    let step : Step :=
      { message := msg,
        snapshotRoot := snapRoot,
        activeNodeStart := (getN heap st.activeNode).start,
        activeEdge := st.activeEdge,
        activeLength := st.activeLength,
        remainder := st.remainingSuffixCount }
    some { st with nodes := heap, steps := st.steps ++ [step] }

/-- The loop of `buildSuffixTreeStepByStep`: for each position, extend and
record a step. -/
def buildPhases : Nat → Nat → ST → Option ST
  | 0, _, st => some st
  | Nat.succ k, i, st =>
    match extendSuffixTree st i with
    | none => none
    | some st =>
      match charAt st.text (i : Int) with
      | none => none
      | some c =>
        match recordStep st ("Extended with '" ++ String.singleton c ++ "' (i=" ++ toString i ++ ")") with
        | none => none
        | some st => buildPhases k (i + 1) st

/-- JS `setSuffixIndexByDFS(node, labelHeight)`: recurse over the children
in index order; at each leaf store `suffixIndex = size - labelHeight`. -/
def setSuffixIndexByDFS : Nat → ST → Nat → Int → Option ST
  | 0, _, _, _ => none
  | Nat.succ fuel, st, id, labelHeight =>
    let kids := (getN st.nodes id).kids
    let stepped := kids.foldl
      (fun acc c =>
        match acc with
        | none => none
        | some st =>
          let edgeLen := (getN st.nodes c).edgeLength st.leafEnd
          setSuffixIndexByDFS fuel st c (labelHeight + edgeLen))
      (some st)
    match stepped with
    | none => none
    | some st =>
      if kids.isEmpty then
        let upd := { getN st.nodes id with suffixIndex := (st.size : Int) - labelHeight }
        some { st with nodes := setN st.nodes id upd }
      else some st

/-- The `SuffixTree` constructor: initialize the state, run all phases
(recording one step per phase), then assign suffix indices by DFS.
There is no input validation of any kind in the source. -/
def build (text : List Char) : Option ST :=
  let (heap, rootId) := push [] (Node.mkNew (-1) (some (-1)))
  let st0 : ST :=
    { text := text, size := text.length, nodes := heap, root := rootId,
      activeNode := rootId, activeEdge := -1, activeLength := 0,
      remainingSuffixCount := 0, leafEnd := -1, lastCreatedNode := none,
      steps := [] }
  match buildPhases text.length 0 st0 with
  | none => none
  | some st => setSuffixIndexByDFS (st.nodes.length + 1) st st.root 0

/-! ## Query operations -/

/-- The inner edge-scanning loop shared by `search` and `_findNode`:
`while (i < edgeLen && pos < pattern.length) { if (text[start+i] !== pattern[pos]) return ...; i++; pos++ }`.
The not-yet-consumed pattern suffix stands for the JS index `pos`; the
result is `none` on a character mismatch and `some rest` when the loop
exits.  Comparing `text[start+i]` out of range (JS `undefined`) with a
pattern character is a mismatch, exactly as in JS. -/
def scanEdge (t : List Char) (start edgeLen : Int) : Nat → List Char → Option (List Char)
  | _, [] => some []
  | i, c :: rest =>
    if (i : Int) < edgeLen then
      if charAt t (start + (i : Int)) = some c then scanEdge t start edgeLen (i + 1) rest
      else none
    else some (c :: rest)

/-- The `while (pos < pattern.length)` descent of JS `search(pattern)`. -/
def searchLoop : Nat → ST → Nat → List Char → Option Bool
  | 0, _, _, _ => none
  | Nat.succ fuel, st, cur, p =>
    match p with
    | [] => some true
    | c :: _ =>
      let idx := charToIndex c
      match (getN st.nodes cur).child idx with
      | none => some false
      | some cid =>
        let child := getN st.nodes cid
        let edgeLen := child.edgeLength st.leafEnd
        match scanEdge st.text child.start edgeLen 0 p with
        | none => some false
        | some rest => searchLoop fuel st cid rest

/-- JS `search(pattern)`.  The wrapper fuel covers every execution in
which each visited edge consumes at least one pattern character. -/
def search (st : ST) (p : List Char) : Option Bool :=
  searchLoop (p.length + st.nodes.length + 1) st st.root p

/-- The descent of JS `_findNode(pattern)`; `some none` means the pattern
is absent, `some (some id)` is the node reached. -/
def findNodeLoop : Nat → ST → Nat → List Char → Option (Option Nat)
  | 0, _, _, _ => none
  | Nat.succ fuel, st, cur, p =>
    match p with
    | [] => some (some cur)
    | c :: _ =>
      let idx := charToIndex c
      match (getN st.nodes cur).child idx with
      | none => some none
      | some cid =>
        let child := getN st.nodes cid
        let edgeLen := child.edgeLength st.leafEnd
        match scanEdge st.text child.start edgeLen 0 p with
        | none => some none
        | some rest => findNodeLoop fuel st cid rest

/-- JS `_collectLeafIndices(node, arr)`: DFS in child-index order,
appending `suffixIndex` of every leaf with `suffixIndex !== -1`. -/
def collectLeafIndices : Nat → ST → Nat → Option (List Int)
  | 0, _, _ => none
  | Nat.succ fuel, st, id =>
    let nd := getN st.nodes id
    let kids := nd.kids
    if kids.isEmpty then
      if nd.suffixIndex ≠ -1 then some [nd.suffixIndex] else some []
    else
      kids.foldl
        (fun acc c =>
          match acc with
          | none => none
          | some l =>
            match collectLeafIndices fuel st c with
            | none => none
            | some l2 => some (l ++ l2))
        (some [])

/-- JS `findAllMatches(pattern)`: find the node, collect the leaf
indices below it, sort ascending. -/
def findAllMatches (st : ST) (p : List Char) : Option (List Int) :=
  match findNodeLoop (p.length + st.nodes.length + 1) st st.root p with
  | none => none
  | some none => some []
  | some (some nid) =>
    match collectLeafIndices (st.nodes.length + 1) st nid with
    | none => none
    | some l => some (l.insertionSort (· ≤ ·))

/-- The `dfs(node, path)` closure of JS `longestRepeatedSubstring`:
record `path` at any node with ≥ 2 children whenever it is strictly
longer than the best so far, then recurse over the children in index
order, threading the best candidate. -/
def lrsDFS : Nat → ST → Nat → List Char → List Char → Option (List Char)
  | 0, _, _, _, _ => none
  | Nat.succ fuel, st, id, path, best =>
    let kids := (getN st.nodes id).kids
    let best := if 2 ≤ kids.length ∧ best.length < path.length then path else best
    kids.foldl
      (fun acc c =>
        match acc with
        | none => none
        | some best =>
          let child := getN st.nodes c
          let edgeLen := child.edgeLength st.leafEnd
          let edgeStr := jsSubstring st.text child.start (child.start + edgeLen)
          lrsDFS fuel st c (path ++ edgeStr) best)
      (some best)

/-- JS `longestRepeatedSubstring()`. -/
def longestRepeatedSubstring (st : ST) : Option (List Char) :=
  lrsDFS (st.nodes.length + 1) st st.root [] []

/-- State threaded through the tree-DFS `shortestUniqueSubstring`:
`minLen` starts at `Number.MAX_SAFE_INTEGER`, `sus` at `""`. -/
structure SusState where
  minLen : Int
  sus : List Char
deriving Repr, DecidableEq

/-- The `for (let prefixLen = 1; prefixLen < pathSoFar.length; prefixLen++)`
partial-edge loop of the tree-DFS variant: try every proper prefix of the
whole root path, stopping at the first one containing `'$'`.  The first
`Nat` argument is a structural countdown covering the at most
`path.length` remaining iterations. -/
def susPrefixLoop (path : List Char) : Nat → Nat → SusState → SusState
  | 0, _, s => s
  | Nat.succ k, prefixLen, s =>
    if prefixLen < path.length then
      let cand := path.take prefixLen
      if cand.contains '$' then s
      else
        let s := if (cand.length : Int) < s.minLen then
            { minLen := (cand.length : Int), sus := cand } else s
        susPrefixLoop path k (prefixLen + 1) s
    else s

/-- The `dfs(node, pathSoFar)` closure of the JS tree-DFS
`shortestUniqueSubstring` (the variant "with partial-edge logic"):
returns the number of leaves below the node and updates the candidate
state when that number is exactly 1. -/
def susDFS : Nat → ST → Nat → List Char → SusState → Option (Nat × SusState)
  | 0, _, _, _, _ => none
  | Nat.succ fuel, st, id, path, s =>
    let kids := (getN st.nodes id).kids
    let folded := kids.foldl
      (fun acc c =>
        match acc with
        | none => none
        | some (leaves, s) =>
          let child := getN st.nodes c
          let edgeLen := child.edgeLength st.leafEnd
          let edgeStr := jsSubstring st.text child.start (child.start + edgeLen)
          match susDFS fuel st c (path ++ edgeStr) s with
          | none => none
          | some (l2, s) => some (leaves + l2, s))
      (some (0, s))
    match folded with
    | none => none
    | some (leaves, s) =>
      let totalLeaves := if kids.length = 0 then 1 else leaves
      if totalLeaves = 1 then
        let s :=
          if ¬ path.contains '$' ∧ 0 < path.length ∧ (path.length : Int) < s.minLen then
            { minLen := (path.length : Int), sus := path }
          else s
        some (totalLeaves, susPrefixLoop path path.length 1 s)
      else some (totalLeaves, s)

/-- The tree-DFS `shortestUniqueSubstring()` (second copy of
`suffixTree.js`), with its partial-edge prefix logic. -/
def shortestUniqueSubstringTree (st : ST) : Option (List Char) :=
  (susDFS (st.nodes.length + 1) st st.root []
    { minLen := 9007199254740991, sus := [] }).map (fun r => r.2.sus)

/-- Strict lexicographic comparison of character lists by code point —
the order JS `Array.prototype.sort()` uses on strings. -/
def lexLtB : List Char → List Char → Bool
  | [], [] => false
  | [], _ :: _ => true
  | _ :: _, [] => false
  | a :: as, b :: bs => if a < b then true else if b < a then false else lexLtB as bs

/-- The non-strict companion of `lexLtB`. -/
def lexLeP (a b : List Char) : Prop := lexLtB b a = false

instance : DecidableRel lexLeP :=
  fun a b => inferInstanceAs (Decidable (lexLtB b a = false))

/-- The inner `for (let i = 0; i <= n - len; i++)` candidate-collection
loop of the brute-force `shortestUniqueSubstring` (first copy of
`suffixTree.js`): collect the substrings of length `len` that contain no
terminal symbol and occur (per `findAllMatches`) exactly once.  Only
called with `1 ≤ len ≤ n`, where the `Nat` bound `n - len + 1` agrees
with the JS bound `i <= n - len`. -/
def susBruteCandsGo (st : ST) (len : Nat) : Nat → Nat → List (List Char) → Option (List (List Char))
  | 0, _, cands => some cands
  | Nat.succ k, i, cands =>
    let cand := jsSubstring st.text (i : Int) ((i : Int) + (len : Int))
    if cand.contains '$' then susBruteCandsGo st len k (i + 1) cands
    else
      match findAllMatches st cand with
      | none => none
      | some occ =>
        if occ.length = 1 then susBruteCandsGo st len k (i + 1) (cands ++ [cand])
        else susBruteCandsGo st len k (i + 1) cands

/-- The candidates of one length: run the inner loop from `i = 0` with an
empty candidate list. -/
def susBruteCands (st : ST) (len : Nat) : Option (List (List Char)) :=
  susBruteCandsGo st len (st.size - len + 1) 0 []

/-- The outer `for (let len = 1; len <= n; len++)` loop of the
brute-force variant: at the first length with a unique candidate, sort
the candidates (JS default sort = lexicographic) and return the first. -/
def susBruteLoop (st : ST) : Nat → Nat → Option (List Char)
  | 0, _ => some []
  | Nat.succ k, len =>
    match susBruteCands st len with
    | none => none
    | some [] => susBruteLoop st k (len + 1)
    | some (c :: cs) =>
      some (((c :: cs).insertionSort lexLeP).headD [])

/-- The brute-force `shortestUniqueSubstring()` (first copy of
`suffixTree.js`). -/
def shortestUniqueSubstringBrute (st : ST) : Option (List Char) :=
  susBruteLoop st st.size 1

/-! ## Auxiliary traversals used to state claims -/

/-- All node ids reachable from `id` through `children` edges, in DFS
order (the nodes making up one tree inside the shared store). -/
def reachIds : Nat → List Node → Nat → Option (List Nat)
  | 0, _, _ => none
  | Nat.succ fuel, heap, id =>
    let folded := (getN heap id).kids.foldl
      (fun acc c =>
        match acc with
        | none => none
        | some l =>
          match reachIds fuel heap c with
          | none => none
          | some l2 => some (l ++ l2))
      (some [])
    match folded with
    | none => none
    | some l => some (id :: l)

/-- Leaf suffix indices of the live tree, sorted ascending (what
`findAllMatches` computes for the empty pattern). -/
def leafIndicesSorted (st : ST) : Option (List Int) :=
  (collectLeafIndices (st.nodes.length + 1) st st.root).map
    (fun l => l.insertionSort (· ≤ ·))

/-- Does the `k`-th snapshot contain a node whose `suffixLink` escapes the
snapshot — i.e. points to a node that is *not* part of the snapshot's own
tree but *is* part of the live tree?  (The specification claims this never
happens: clone suffix links are said to be remapped to the clones.) -/
def snapshotLinkViolation (st : ST) (k : Nat) : Bool :=
  match st.steps.get? k with
  | none => false
  | some step =>
    match reachIds (st.nodes.length + 1) st.nodes step.snapshotRoot,
          reachIds (st.nodes.length + 1) st.nodes st.root with
    | some snapR, some liveR =>
      snapR.any (fun id =>
        match (getN st.nodes id).suffixLink with
        | some s => !(snapR.contains s) && liveR.contains s
        | none => false)
    | _, _ => false

/-! ## Specification-side definitions (reference oracles) -/

/-- Spec-side: the substring `text[i..i+len)`. -/
def sliceL (t : List Char) (i len : Nat) : List Char := (t.drop i).take len

/-- Spec-side occurrence oracle: the positions `i` of the text with
`text[i..i+len(p)) == p`, ascending (brute-force scan). -/
def occPositions (t p : List Char) : List Nat :=
  (List.range t.length).filter
    (fun i => decide (i + p.length ≤ t.length) && (sliceL t i p.length == p))

/-- Modelled from the spec (§3 "Text"): symbols are `A`–`Z` plus one
terminal `'$'` that occurs exactly once, at the final position.  (The
source has no such validity check; this predicate is only used to state
claims.) -/
def validTextB (t : List Char) : Bool :=
  (t.getLast? == some '$') &&
    t.dropLast.all (fun c => decide ('A' ≤ c) && decide (c ≤ 'Z'))

/-- Spec-side candidate filter for the shortest-unique-substring
reference definition: no terminal symbol and exactly one occurrence. -/
def isUniqueCand (t c : List Char) : Bool :=
  !(c.contains '$') && (occPositions t c).length == 1

/-- The spec's SUS preference order: shorter first, then lexicographic. -/
def susLtB (a b : List Char) : Bool :=
  decide (a.length < b.length) || (decide (a.length = b.length) && lexLtB a b)

/-- First minimum of a list under `susLtB` (`none` for the empty list). -/
def susMinFold : List (List Char) → Option (List Char)
  | [] => none
  | c :: cs => some (cs.foldl (fun b c' => if susLtB c' b then c' else b) c)

/-- Spec-side: all unique candidates of one length, in position order. -/
def specCandidatesAtLen (t : List Char) (len : Nat) : List (List Char) :=
  ((List.range (t.length - len + 1)).map (fun i => sliceL t i len)).filter
    (isUniqueCand t)

/-- Spec-side: all unique candidates, by increasing length. -/
def specCandidates (t : List Char) : List (List Char) :=
  (List.range t.length).flatMap (fun lm1 => specCandidatesAtLen t (lm1 + 1))

/-- Spec-side SUS (§4.2 reference definition): among all substrings that
do not contain the terminal symbol, the shortest one with exactly one
occurrence, ties broken lexicographically; empty when none exists. -/
def specSUS (t : List Char) : List Char :=
  (susMinFold (specCandidates t)).getD []

/-- The `(len, i)` index pairs of all nonempty substrings of `t`. -/
def slicePairs (t : List Char) : List (Nat × Nat) :=
  (List.range t.length).flatMap (fun lm1 =>
    (List.range (t.length - lm1)).map (fun i => (lm1 + 1, i)))

/-- Does `findAllMatches` agree with the brute-force occurrence oracle on
every nonempty substring of the tree's text? -/
def oracleAgrees (st : ST) : Bool :=
  (slicePairs st.text).all (fun q =>
    findAllMatches st (sliceL st.text q.2 q.1) ==
      some ((occPositions st.text (sliceL st.text q.2 q.1)).map Int.ofNat))

/-! ## Concrete inputs used by the claims -/

/-- The spec's scenario text `"BANANA$"`. -/
def tBANANA : List Char := ['B', 'A', 'N', 'A', 'N', 'A', '$']

/-- The tree built from `"BANANA$"`. -/
def stBANANA : ST := (build tBANANA).getD defaultST

/-- The spec's scenario text `"AAAA$"`. -/
def tAAAA : List Char := ['A', 'A', 'A', 'A', '$']

/-- The tree built from `"AAAA$"`. -/
def stAAAA : ST := (build tAAAA).getD defaultST

/-- The spec's malformed input `"A$B"` (terminal not at the end). -/
def tMalformed : List Char := ['A', '$', 'B']

/-- The tree the implementation happily builds from `"A$B"`. -/
def stMalformed : ST := (build tMalformed).getD defaultST

/-- The text `"AAB$"`, whose construction assigns a suffix link that is
visible in the snapshots. -/
def tAAB : List Char := ['A', 'A', 'B', '$']

/-- The tree built from `"AAB$"`. -/
def stAAB : ST := (build tAAB).getD defaultST

/-- Spec-side structural check: every reachable non-root node that has
children has at least two of them. -/
def internalNodesBranchOK (st : ST) : Bool :=
  match reachIds (st.nodes.length + 1) st.nodes st.root with
  | none => false
  | some ids =>
    ids.all (fun id =>
      id == st.root || (getN st.nodes id).kids.length == 0 ||
        decide (2 ≤ (getN st.nodes id).kids.length))

/-- The text `"AB$"`, which has no repeated substring. -/
def tAB : List Char := ['A', 'B', '$']

/-- The tree built from `"AB$"`. -/
def stAB : ST := (build tAB).getD defaultST

/-! ## Helper lemmas -/

theorem foldl_none_none {α β : Type} (f : Option β → α → Option β)
    (hf : ∀ a, f none a = none) : ∀ l : List α, l.foldl f none = none := by
  intro l
  induction l with
  | nil => rfl
  | cons a l ih => simp only [List.foldl_cons, hf a, ih]

theorem foldl_option_pres {α β γ : Type} (f : Option β → α → Option β)
    (proj : β → γ)
    (hf : ∀ a, f none a = none)
    (hstep : ∀ b a b', f (some b) a = some b' → proj b' = proj b) :
    ∀ (l : List α) (b b' : β), l.foldl f (some b) = some b' → proj b' = proj b := by
  intro l
  induction l with
  | nil => intro b b' h; cases h; rfl
  | cons a l ih =>
    intro b b' h
    simp only [List.foldl_cons] at h
    cases hfa : f (some b) a with
    | none => rw [hfa, foldl_none_none f hf] at h; cases h
    | some b1 =>
      rw [hfa] at h
      exact (ih b1 b' h).trans (hstep b a b1 hfa)

theorem afterInsert_steps (st : ST) (pos : Nat) : (afterInsert st pos).steps = st.steps := by
  simp only [afterInsert]
  split
  · rfl
  · split <;> rfl

theorem extendLoop_steps : ∀ (fuel pos : Nat) (st st' : ST),
    extendLoop fuel pos st = some st' → st'.steps = st.steps := by
  intro fuel
  induction fuel with
  | zero => intro pos st st' h; exact absurd h (by simp [extendLoop])
  | succ fuel ih =>
    intro pos st st' h
    simp only [extendLoop] at h
    iterate 30 (all_goals try split at h)
    all_goals try (cases h; rfl)
    all_goals try (exact Option.noConfusion h)
    all_goals try (rw [ih _ _ _ h]; rfl)
    all_goals rw [ih _ _ _ h, afterInsert_steps]

theorem extendSuffixTree_steps (st : ST) (pos : Nat) (st' : ST)
    (h : extendSuffixTree st pos = some st') : st'.steps = st.steps := by
  simp only [extendSuffixTree] at h
  have h2 := extendLoop_steps _ _ _ _ h
  exact h2

theorem recordStep_steps (st : ST) (msg : String) (st' : ST)
    (h : recordStep st msg = some st') : st'.steps.length = st.steps.length + 1 := by
  simp only [recordStep] at h
  split at h
  · exact Option.noConfusion h
  · cases h; simp

theorem buildPhases_steps : ∀ (k i : Nat) (st st' : ST),
    buildPhases k i st = some st' → st'.steps.length = st.steps.length + k := by
  intro k
  induction k with
  | zero => intro i st st' h; cases h; simp
  | succ k ih =>
    intro i st st' h
    simp only [buildPhases] at h
    split at h
    · exact Option.noConfusion h
    · rename_i st1 hext
      split at h
      · exact Option.noConfusion h
      · rename_i c hc
        split at h
        · exact Option.noConfusion h
        · rename_i st2 hrec
          have h1 := extendSuffixTree_steps _ _ _ hext
          have h2 := recordStep_steps _ _ _ hrec
          have h3 := ih _ _ _ h
          rw [h3, h2, h1]
          omega

theorem setSuffixIndexByDFS_steps : ∀ (fuel : Nat) (st : ST) (id : Nat) (lh : Int) (st' : ST),
    setSuffixIndexByDFS fuel st id lh = some st' → st'.steps = st.steps := by
  intro fuel
  induction fuel with
  | zero => intro st id lh st' h; exact Option.noConfusion h
  | succ fuel ih =>
    intro st id lh st' h
    simp only [setSuffixIndexByDFS] at h
    split at h
    · exact Option.noConfusion h
    · rename_i st1 hfold
      have hpres : st1.steps = st.steps := by
        refine foldl_option_pres _ ST.steps (fun a => rfl) ?_ _ _ _ hfold
        intro b a b' hb
        exact ih _ _ _ _ hb
      split at h
      · cases h; exact hpres
      · cases h; exact hpres

theorem build_steps_length (text : List Char) (st : ST)
    (h : build text = some st) : st.steps.length = text.length := by
  simp only [build] at h
  split at h
  · exact Option.noConfusion h
  · rename_i st1 hph
    have h1 := buildPhases_steps _ _ _ _ hph
    have h2 := setSuffixIndexByDFS_steps _ _ _ _ _ h
    rw [h2, h1]
    simp

theorem cloneNode_suffixLink (fuel : Nat) (heap : List Node) (id : Nat)
    (r : List Node × Nat) (h : cloneNode fuel heap id = some r) :
    (getN r.1 r.2).suffixLink = (getN heap id).suffixLink := by
  cases fuel with
  | zero => exact Option.noConfusion h
  | succ fuel =>
    simp only [cloneNode] at h
    split at h
    · exact Option.noConfusion h
    · rename_i heap2 kids hfold
      cases h
      simp only [push, getN, List.get?_eq_getElem?]
      rw [List.getElem?_append_right (Nat.le_refl _)]
      simp

theorem lexLtB_iff_lt : ∀ (a b : List Char), lexLtB a b = true ↔ a < b := by
  intro a
  induction a with
  | nil =>
    intro b
    cases b with
    | nil =>
      simp only [lexLtB]
      constructor
      · intro h; exact absurd h (by simp)
      · intro h; exact absurd h (lt_irrefl _)
    | cons b bs =>
      simp only [lexLtB]
      exact ⟨fun _ => List.nil_lt_cons b bs, fun _ => by trivial⟩
  | cons a as ih =>
    intro b
    cases b with
    | nil =>
      simp only [lexLtB]
      constructor
      · intro h; exact absurd h (by simp)
      · intro h; exact absurd h (by exact fun hlt => List.Lex.not_nil_right _ _ hlt)
    | cons b bs =>
      show (if a < b then true else if b < a then false else lexLtB as bs) = true ↔
        List.Lex (· < ·) (a :: as) (b :: bs)
      rcases lt_trichotomy a b with hab | hab | hab
      · simp only [if_pos hab, true_iff]
        exact List.Lex.rel hab
      · subst hab
        simp only [lt_irrefl, if_neg (lt_irrefl a), if_false]
        rw [ih bs]
        constructor
        · intro h; exact List.Lex.cons h
        · intro h
          cases h with
          | cons h => exact h
          | rel h => exact absurd h (lt_irrefl a)
      · rw [if_neg (asymm hab), if_pos hab]
        constructor
        · intro h; exact absurd h (by simp)
        · intro h
          cases h with
          | cons h => exact absurd hab (lt_irrefl a)
          | rel h => exact absurd hab (asymm h)

theorem lexLtB_false_iff (a b : List Char) : lexLtB a b = false ↔ b ≤ a := by
  rw [← not_lt, ← lexLtB_iff_lt]
  cases lexLtB a b <;> simp

theorem lexLeP_iff (a b : List Char) : lexLeP a b ↔ a ≤ b := by
  rw [lexLeP, lexLtB_false_iff]

theorem lexLtB_self (a : List Char) : lexLtB a a = false :=
  (lexLtB_false_iff a a).mpr (le_refl a)

theorem susLtB_iff (a b : List Char) :
    susLtB a b = true ↔ (a.length < b.length ∨ (a.length = b.length ∧ a < b)) := by
  simp [susLtB, lexLtB_iff_lt]

theorem susLtB_irrefl (a : List Char) : susLtB a a = false := by
  cases h : susLtB a a
  · rfl
  · rw [susLtB_iff] at h
    rcases h with h | ⟨_, h⟩
    · exact absurd h (lt_irrefl _)
    · exact absurd h (lt_irrefl _)

theorem susLtB_trans {a b c : List Char} (h1 : susLtB a b = true) (h2 : susLtB b c = true) :
    susLtB a c = true := by
  rw [susLtB_iff] at h1 h2 ⊢
  rcases h1 with h1 | ⟨h1e, h1l⟩ <;> rcases h2 with h2 | ⟨h2e, h2l⟩
  · exact Or.inl (lt_trans h1 h2)
  · exact Or.inl (h2e ▸ h1)
  · exact Or.inl (h1e ▸ h2)
  · exact Or.inr ⟨h1e.trans h2e, lt_trans h1l h2l⟩

theorem susLtB_connex {a b : List Char} (h1 : susLtB a b = false) (h2 : susLtB b a = false) :
    a = b := by
  have e1 : ¬ (a.length < b.length ∨ (a.length = b.length ∧ a < b)) := by
    rw [← susLtB_iff, h1]; simp
  have e2 : ¬ (b.length < a.length ∨ (b.length = a.length ∧ b < a)) := by
    rw [← susLtB_iff, h2]; simp
  push_neg at e1 e2
  have hlen : a.length = b.length := le_antisymm e2.1 e1.1
  exact le_antisymm (e2.2 hlen.symm) (e1.2 hlen)

/-- If `susLtB b a` is `false` then either `a` is strictly preferred or they
are equal. -/
theorem susLtB_false_cases {a b : List Char} (h : susLtB b a = false) :
    susLtB a b = true ∨ a = b := by
  cases hab : susLtB a b
  · exact Or.inr (susLtB_connex hab h)
  · exact Or.inl rfl

theorem susMinFold_spec : ∀ (cs : List (List Char)) (c : List Char),
    (cs.foldl (fun b c' => if susLtB c' b then c' else b) c) ∈ c :: cs ∧
      ∀ x ∈ c :: cs, susLtB x (cs.foldl (fun b c' => if susLtB c' b then c' else b) c) = false := by
  intro cs
  induction cs with
  | nil =>
    intro c
    refine ⟨List.mem_singleton_self c, ?_⟩
    intro x hx
    rw [List.mem_singleton] at hx
    subst hx
    exact susLtB_irrefl x
  | cons c' cs ih =>
    intro c
    simp only [List.foldl_cons]
    by_cases hcc : susLtB c' c = true
    · rw [if_pos hcc]
      obtain ⟨hmem, hmin⟩ := ih c'
      refine ⟨List.mem_cons_of_mem _ hmem, ?_⟩
      intro x hx
      rcases List.mem_cons.mp hx with hxc | hx'
      · rw [hxc]
        cases hcm2 : susLtB c (cs.foldl (fun b d => if susLtB d b then d else b) c')
        · rfl
        · exfalso
          have hlink := susLtB_trans hcc hcm2
          have hc' := hmin c' (List.mem_cons_self _ _)
          rw [hlink] at hc'
          cases hc'
      · exact hmin x hx'
    · rw [if_neg hcc]
      have hcc' : susLtB c' c = false := by revert hcc; cases susLtB c' c <;> simp
      obtain ⟨hmem, hmin⟩ := ih c
      refine ⟨?_, ?_⟩
      · rcases List.mem_cons.mp hmem with h | h
        · rw [h]; exact List.mem_cons_self _ _
        · exact List.mem_cons_of_mem _ (List.mem_cons_of_mem _ h)
      · intro x hx
        rcases List.mem_cons.mp hx with hxc | hx'
        · rw [hxc]; exact hmin c (List.mem_cons_self _ _)
        · rcases List.mem_cons.mp hx' with hxc' | hx2
          · rw [hxc']
            cases hcm2 : susLtB c' (cs.foldl (fun b d => if susLtB d b then d else b) c)
            · rfl
            · exfalso
              have hcm := hmin c (List.mem_cons_self _ _)
              rcases susLtB_false_cases hcc' with hc | hc
              · have hlink := susLtB_trans hc hcm2
                rw [hlink] at hcm
                cases hcm
              · rw [← hc] at hcm2
                rw [hcm2] at hcm
                cases hcm
          · exact hmin x (List.mem_cons_of_mem _ hx2)

theorem insertionSort_head_min (c : List Char) (cs : List (List Char)) :
    (((c :: cs).insertionSort lexLeP).headD []) ∈ c :: cs ∧
      ∀ x ∈ c :: cs, lexLtB x (((c :: cs).insertionSort lexLeP).headD []) = false := by
  haveI : IsTotal (List Char) lexLeP :=
    ⟨fun a b => by rw [lexLeP_iff, lexLeP_iff]; exact le_total a b⟩
  haveI : IsTrans (List Char) lexLeP :=
    ⟨fun a b c hab hbc => by rw [lexLeP_iff] at *; exact le_trans hab hbc⟩
  have hperm := List.perm_insertionSort lexLeP (c :: cs)
  have hsorted := List.sorted_insertionSort lexLeP (c :: cs)
  cases hs : (c :: cs).insertionSort lexLeP with
  | nil =>
    exfalso
    have := hperm.length_eq
    rw [hs] at this
    simp at this
  | cons m rest =>
    rw [hs] at hperm hsorted
    simp only [List.headD_cons]
    constructor
    · exact hperm.subset (List.mem_cons_self _ _)
    · intro x hx
      have hx2 := hperm.symm.subset hx
      rcases List.mem_cons.mp hx2 with hxm | hxr
      · rw [hxm]; exact lexLtB_self m
      · exact List.rel_of_sorted_cons hsorted x hxr

theorem jsSubstring_eq_sliceL (t : List Char) (i len : Nat) (h : i + len ≤ t.length) :
    jsSubstring t (i : Int) ((i : Int) + (len : Int)) = sliceL t i len := by
  simp only [jsSubstring, sliceL]
  have ha : (min (max ((i : Int)) 0) ((t.length : Int))).toNat = i := by omega
  have hb : (min (max (((i : Int) + (len : Int))) 0) ((t.length : Int))).toNat = i + len := by
    omega
  rw [ha, hb, Nat.min_eq_left (by omega), Nat.max_eq_right (by omega)]
  congr 1
  omega

theorem oracleAgrees_spec {st : ST} (h : oracleAgrees st = true) (len i : Nat)
    (h1 : 1 ≤ len) (h2 : i + len ≤ st.text.length) :
    findAllMatches st (sliceL st.text i len) =
      some ((occPositions st.text (sliceL st.text i len)).map Int.ofNat) := by
  rw [oracleAgrees, List.all_eq_true] at h
  have hmem : ((len, i) : Nat × Nat) ∈ slicePairs st.text := by
    rw [slicePairs, List.mem_flatMap]
    refine ⟨len - 1, ?_, ?_⟩
    · rw [List.mem_range]; omega
    · rw [List.mem_map]
      refine ⟨i, by rw [List.mem_range]; omega, ?_⟩
      rw [Nat.sub_add_cancel h1]
  have hq := h _ hmem
  simpa using hq

theorem specCandidatesAtLen_length {t : List Char} {len : Nat} (h2 : len ≤ t.length) :
    ∀ x ∈ specCandidatesAtLen t len, x.length = len := by
  intro x hx
  rw [specCandidatesAtLen, List.mem_filter] at hx
  obtain ⟨hx, _⟩ := hx
  rw [List.mem_map] at hx
  obtain ⟨i, hi, rfl⟩ := hx
  rw [List.mem_range] at hi
  rw [sliceL, List.length_take, List.length_drop]
  omega

theorem susBruteCandsGo_spec (st : ST) (len : Nat)
    (hOA : oracleAgrees st = true) (h1 : 1 ≤ len) :
    ∀ (k i : Nat) (cands : List (List Char)), i + k + len = st.text.length + 1 →
      susBruteCandsGo st len k i cands =
        some (cands ++
          ((List.range k).map (fun j => sliceL st.text (i + j) len)).filter
            (isUniqueCand st.text)) := by
  intro k
  induction k with
  | zero => intro i cands _; simp [susBruteCandsGo]
  | succ k ih =>
    intro i cands hbound
    have hib : i + len ≤ st.text.length := by omega
    have hrange : (List.range (k + 1)).map (fun j => sliceL st.text (i + j) len) =
        sliceL st.text i len ::
          (List.range k).map (fun j => sliceL st.text (i + 1 + j) len) := by
      rw [List.range_succ_eq_map, List.map_cons, List.map_map]
      refine congrArg₂ _ (by rw [Nat.add_zero]) ?_
      refine List.map_congr_left (fun j _ => ?_)
      simp only [Function.comp_apply]
      congr 1
      omega
    rw [hrange]
    simp only [susBruteCandsGo, jsSubstring_eq_sliceL st.text i len hib]
    by_cases hdol : (sliceL st.text i len).contains '$'
    · rw [if_pos hdol, ih (i + 1) cands (by omega)]
      have hu : isUniqueCand st.text (sliceL st.text i len) = false := by
        rw [isUniqueCand, hdol]; rfl
      rw [List.filter_cons_of_neg (by simp [hu])]
    · rw [if_neg hdol]
      simp only [oracleAgrees_spec hOA len i h1 hib, List.length_map]
      by_cases hocc : (occPositions st.text (sliceL st.text i len)).length = 1
      · rw [if_pos hocc, ih (i + 1) (cands ++ [sliceL st.text i len]) (by omega)]
        have hu : isUniqueCand st.text (sliceL st.text i len) = true := by
          rw [isUniqueCand]
          simp only [Bool.and_eq_true, Bool.not_eq_true']
          exact ⟨by revert hdol; cases (sliceL st.text i len).contains '$' <;> simp,
            by simpa using hocc⟩
        rw [List.filter_cons_of_pos (by simp [hu])]
        simp
      · rw [if_neg hocc, ih (i + 1) cands (by omega)]
        have hu : isUniqueCand st.text (sliceL st.text i len) = false := by
          rw [isUniqueCand]
          simp only [Bool.and_eq_false_iff]
          right
          simpa using hocc
        rw [List.filter_cons_of_neg (by simp [hu])]

theorem susBruteCands_spec (st : ST) (len : Nat) (hsz : st.size = st.text.length)
    (hOA : oracleAgrees st = true) (h1 : 1 ≤ len) (h2 : len ≤ st.size) :
    susBruteCands st len = some (specCandidatesAtLen st.text len) := by
  rw [susBruteCands, specCandidatesAtLen, hsz]
  rw [susBruteCandsGo_spec st len hOA h1 (st.text.length - len + 1) 0 [] (by omega)]
  simp only [List.nil_append, Nat.zero_add]

theorem susLtB_eq_false_of_longer {a b : List Char} (h : b.length < a.length) :
    susLtB a b = false := by
  cases hab : susLtB a b
  · rfl
  · rw [susLtB_iff] at hab
    rcases hab with h' | ⟨h', _⟩ <;> omega

theorem susLtB_eq_false_of_eq_lex {a b : List Char} (h : a.length = b.length)
    (hlex : lexLtB a b = false) : susLtB a b = false := by
  cases hab : susLtB a b
  · rfl
  · rw [susLtB_iff] at hab
    rcases hab with h' | ⟨_, h'⟩
    · omega
    · rw [← lexLtB_iff_lt, hlex] at h'
      cases h'

theorem mem_specCandidates_iff {t x} : x ∈ specCandidates t ↔
    ∃ len, 1 ≤ len ∧ len ≤ t.length ∧ x ∈ specCandidatesAtLen t len := by
  rw [specCandidates, List.mem_flatMap]
  constructor
  · rintro ⟨lm1, hlm1, hx⟩
    rw [List.mem_range] at hlm1
    exact ⟨lm1 + 1, by omega, by omega, hx⟩
  · rintro ⟨len, h1, h2, hx⟩
    refine ⟨len - 1, by rw [List.mem_range]; omega, ?_⟩
    rw [Nat.sub_add_cancel h1]
    exact hx

theorem susBruteLoop_spec (st : ST) (hsz : st.size = st.text.length)
    (hOA : oracleAgrees st = true) :
    ∀ (k len : Nat), 1 ≤ len → len + k = st.size + 1 →
      (∀ l', 1 ≤ l' → l' < len → specCandidatesAtLen st.text l' = []) →
      susBruteLoop st k len = some (specSUS st.text) := by
  intro k
  induction k with
  | zero =>
    intro len h1 hk hempty
    have hSC : specCandidates st.text = [] := by
      rw [specCandidates, List.flatMap_eq_nil_iff]
      intro lm1 hlm1
      rw [List.mem_range] at hlm1
      exact hempty (lm1 + 1) (by omega) (by omega)
    rw [susBruteLoop, specSUS, hSC]
    rfl
  | succ k ih =>
    intro len h1 hk hempty
    have hlen_le : len ≤ st.size := by omega
    rw [susBruteLoop]
    rw [susBruteCands_spec st len hsz hOA h1 hlen_le]
    cases hP : specCandidatesAtLen st.text len with
    | nil =>
      simp only []
      exact ih (len + 1) (by omega) (by omega) (by
        intro l' hl1 hl2
        rcases Nat.lt_or_ge l' len with hcase | hcase
        · exact hempty l' hl1 hcase
        · have : l' = len := by omega
          rw [this]
          exact hP)
    | cons c cs =>
      simp only []
      obtain ⟨hmem, hmin⟩ := insertionSort_head_min c cs
      set m := ((c :: cs).insertionSort lexLeP).headD [] with hm
      rw [← hP] at hmem hmin
      have hmlen : m.length = len :=
        specCandidatesAtLen_length (by omega) _ hmem
      have hmemAll : m ∈ specCandidates st.text :=
        mem_specCandidates_iff.mpr ⟨len, h1, by omega, hmem⟩
      have hminAll : ∀ x ∈ specCandidates st.text,
          susLtB x m = false := by
        intro x hx
        obtain ⟨l', h1', hle', hx'⟩ := mem_specCandidates_iff.mp hx
        have hxlen : x.length = l' := specCandidatesAtLen_length hle' _ hx'
        rcases lt_trichotomy l' len with hcase | hcase | hcase
        · rw [hempty l' h1' hcase] at hx'
          cases hx'
        · subst hcase
          exact susLtB_eq_false_of_eq_lex (by omega) (hmin x hx')
        · exact susLtB_eq_false_of_longer (by omega)
      cases hSC : specCandidates st.text with
      | nil => rw [hSC] at hmemAll; cases hmemAll
      | cons c0 cs0 =>
        rw [specSUS, hSC, susMinFold]
        obtain ⟨hm0mem, hm0min⟩ := susMinFold_spec cs0 c0
        rw [← hSC] at hm0mem
        have e1 := hminAll _ hm0mem
        have e2 := hm0min _ (by rw [← hSC]; exact hmemAll)
        have := susLtB_connex e2 e1
        rw [Option.getD_some, this]


/-! ## Theorems -/

/-! ### C3 — input validation -/

/-- C3 counterexample: the claim says `build("A$B")` (terminal not at the
end) fails with an `InvalidInputError` before any mutation.  In fact the
constructor performs no validation at all: on `"A$B"` it runs all three
phases and returns a complete tree (three snapshot records, three leaves
with suffix indices 0, 1, 2). -/
theorem C3_counterexample_malformed_input_accepted :
    (build tMalformed).isSome = true ∧
      stMalformed.steps.length = 3 ∧
      leafIndicesSorted stMalformed = some [0, 1, 2] := by
  refine ⟨by decide, by decide, by decide⟩

/-- C3 (amended): `build` has no failure path and no `InvalidInputError`
exists anywhere in the implementation; a malformed text such as `"A$B"`
is accepted and fully processed into a queryable tree, one snapshot per
position, with a leaf per suffix. -/
theorem C3_build_never_validates :
    build tMalformed = some stMalformed ∧
      validTextB tMalformed = false ∧
      stMalformed.steps.length = 3 ∧
      leafIndicesSorted stMalformed = some [0, 1, 2] ∧
      search stMalformed ['$', 'B'] = some true ∧
      search stMalformed ['B'] = some true := by
  exact ⟨rfl, by decide, by decide, by decide, by decide, by decide⟩

/-! ### C7 — the two SUS implementations disagree -/

/-- C7: there is a valid input text on which the two
`shortestUniqueSubstring` implementations disagree: on `"BANANA$"` the
brute-force variant returns `"B"` while the tree-DFS variant with
partial-edge handling returns `"A"` (which is not even unique). -/
theorem C7_sus_implementations_differ :
    validTextB tBANANA = true ∧
      build tBANANA = some stBANANA ∧
      shortestUniqueSubstringBrute stBANANA = some ['B'] ∧
      shortestUniqueSubstringTree stBANANA = some ['A'] ∧
      shortestUniqueSubstringBrute stBANANA ≠ shortestUniqueSubstringTree stBANANA := by
  exact ⟨by decide, rfl, by decide, by decide, by decide⟩

/-! ### C5 — shortest unique substring -/

/-- C5 counterexample: the tree-DFS `shortestUniqueSubstring` (one of the
two implementations the claim covers) returns `"A"` on `"BANANA$"`, but
`"A"` occurs at the three positions 1, 3, 5 — not at exactly one — so the
returned string is not a unique substring at all, refuting the claim as
stated. -/
theorem C5_counterexample_tree_variant_banana :
    build tBANANA = some stBANANA ∧
      shortestUniqueSubstringTree stBANANA = some ['A'] ∧
      occPositions tBANANA ['A'] = [1, 3, 5] ∧
      specSUS tBANANA = ['B'] := by
  exact ⟨rfl, by decide, by decide, by decide⟩

/-- C5 (amended): the brute-force `shortestUniqueSubstring` variant does
satisfy the reference definition — whenever `findAllMatches` agrees with
the brute-force occurrence oracle on every nonempty substring of the text
(which holds on the inputs checked below but is not proved for every
text), it returns the shortest terminal-free substring with exactly one
occurrence, ties broken lexicographically, and the empty string exactly
when no unique substring exists.  The tree-DFS variant does not satisfy
the claim (see the counterexample). -/
theorem C5_brute_sus_matches_spec (st : ST) (hsz : st.size = st.text.length)
    (hOA : oracleAgrees st = true) :
    shortestUniqueSubstringBrute st = some (specSUS st.text) := by
  rw [shortestUniqueSubstringBrute]
  exact susBruteLoop_spec st hsz hOA st.size 1 (by omega) (by omega)
    (by intro l' h1 h2; omega)

/-- Witness for `C5_brute_sus_matches_spec`, instantiated on the tree
built from `"BANANA$"`; the spec-side answer there is `"B"`. -/
theorem C5_brute_sus_matches_spec_witness :
    stBANANA.size = stBANANA.text.length ∧ oracleAgrees stBANANA = true ∧
      shortestUniqueSubstringBrute stBANANA = some (specSUS stBANANA.text) ∧
      specSUS stBANANA.text = ['B'] :=
  ⟨by decide, by decide,
   C5_brute_sus_matches_spec stBANANA (by decide) (by decide), by decide⟩

/-! ### C9 — snapshots -/

/-- C9 counterexample: in the tree built from `"AAB$"`, the snapshot
recorded after phase 2 contains a node whose `suffixLink` points at the
live tree's root — a node that is not part of the snapshot — refuting
"suffix links are remapped to the corresponding clones; every suffixLink
stored in a snapshot points to a node of that same snapshot, never into
the live tree". -/
theorem C9_counterexample_snapshot_link_into_live_tree :
    build tAAB = some stAAB ∧ snapshotLinkViolation stAAB 2 = true := by
  exact ⟨rfl, by decide⟩

/-- C9 (amended): one snapshot record is produced per construction phase
(so the sequence has exactly one record per text position), and
`cloneNode` deep-copies the child structure, but the `suffixLink` field of
a clone is copied as-is — the very node reference (store id) held by the
original, i.e. a node of the live tree — rather than being remapped to the
corresponding clone. -/
theorem C9_one_record_per_phase_links_not_remapped :
    (∀ (text : List Char) (st : ST), build text = some st →
        st.steps.length = text.length) ∧
      (∀ (fuel : Nat) (heap : List Node) (id : Nat) (r : List Node × Nat),
        cloneNode fuel heap id = some r →
          (getN r.1 r.2).suffixLink = (getN heap id).suffixLink) :=
  ⟨build_steps_length, cloneNode_suffixLink⟩

/-- Witness for `C9_one_record_per_phase_links_not_remapped`: apply the
first part to the concrete build of `"AAB$"` and the second to a concrete
clone of the root of that tree. -/
theorem C9_one_record_per_phase_witness :
    stAAB.steps.length = tAAB.length ∧
      (getN ((cloneNode (stAAB.nodes.length + 1) stAAB.nodes stAAB.root).getD ([], 0)).1
            ((cloneNode (stAAB.nodes.length + 1) stAAB.nodes stAAB.root).getD ([], 0)).2).suffixLink =
        (getN stAAB.nodes stAAB.root).suffixLink :=
  ⟨C9_one_record_per_phase_links_not_remapped.1 tAAB stAAB rfl,
   C9_one_record_per_phase_links_not_remapped.2 (stAAB.nodes.length + 1) stAAB.nodes stAAB.root
     ((cloneNode (stAAB.nodes.length + 1) stAAB.nodes stAAB.root).getD ([], 0)) rfl⟩

/-! ### Concrete verification of further specification scenarios

These evaluations check, on the spec's concrete scenarios, the parts of
the specification whose fully universal statements (correctness of the
complete Ukkonen construction for every text) are beyond this
development. -/

/-- `"BANANA$"`: `search("ANA")` is true, `findAllMatches("ANA") = [1,3]`
(matching the brute-force oracle), and an absent pattern yields `[]`. -/
theorem banana_search_and_matches :
    search stBANANA ['A', 'N', 'A'] = some true ∧
      findAllMatches stBANANA ['A', 'N', 'A'] = some [1, 3] ∧
      occPositions tBANANA ['A', 'N', 'A'] = [1, 3] ∧
      findAllMatches stBANANA ['X', 'Y', 'Z'] = some [] ∧
      occPositions tBANANA ['X', 'Y', 'Z'] = [] := by
  exact ⟨by decide, by decide, by decide, by decide, by decide⟩

/-- `"AAAA$"`: `findAllMatches("A") = [0,1,2,3]`, as the oracle says. -/
theorem aaaa_matches :
    findAllMatches stAAAA ['A'] = some [0, 1, 2, 3] ∧
      occPositions tAAAA ['A'] = [0, 1, 2, 3] := by
  exact ⟨by decide, by decide⟩

/-- The empty pattern is accepted: `search` is true and `findAllMatches`
returns every text position, including the terminal-only suffix. -/
theorem empty_pattern_all_positions :
    search stBANANA [] = some true ∧
      findAllMatches stBANANA [] = some [0, 1, 2, 3, 4, 5, 6] ∧
      findAllMatches stAAAA [] = some [0, 1, 2, 3, 4] ∧
      findAllMatches stAAB [] = some [0, 1, 2, 3] := by
  exact ⟨by decide, by decide, by decide, by decide⟩

/-- Leaf/branching invariants on the scenario trees: one leaf per suffix
with suffix indices covering `[0, n]`, and every reachable non-root
internal node has at least two children. -/
theorem scenario_tree_invariants :
    leafIndicesSorted stBANANA = some [0, 1, 2, 3, 4, 5, 6] ∧
      leafIndicesSorted stAAAA = some [0, 1, 2, 3, 4] ∧
      leafIndicesSorted stAAB = some [0, 1, 2, 3] ∧
      internalNodesBranchOK stBANANA = true ∧
      internalNodesBranchOK stAAAA = true ∧
      internalNodesBranchOK stAAB = true := by
  exact ⟨by decide, by decide, by decide, by decide, by decide, by decide⟩

/-- `findAllMatches` agrees with the brute-force occurrence oracle on
every nonempty substring of the further scenario texts. -/
theorem scenario_oracle_agreement :
    oracleAgrees stAAAA = true ∧ oracleAgrees stAAB = true ∧
      oracleAgrees stAB = true := by
  exact ⟨by decide, by decide, by decide⟩

/-- Patterns with characters outside the alphabet yield a graceful
`false` from `search`, never an error. -/
theorem out_of_alphabet_graceful_false :
    search stBANANA ['a'] = some false ∧
      search stBANANA ['['] = some false ∧
      search stBANANA ['B', 'a'] = some false ∧
      findAllMatches stBANANA ['a'] = some [] := by
  exact ⟨by decide, by decide, by decide, by decide⟩

/-- `"BANANA$"`: the longest repeated substring is `"ANA"`, which indeed
occurs twice while no length-4 substring repeats; a text without repeats
yields the empty string. -/
theorem banana_lrs :
    longestRepeatedSubstring stBANANA = some ['A', 'N', 'A'] ∧
      (occPositions tBANANA ['A', 'N', 'A']).length = 2 ∧
      longestRepeatedSubstring stAB = some [] := by
  exact ⟨by decide, by decide, by decide⟩

end SuffixTreeJS

